import Mathlib

/-
Verification of the extractive paragraph summarizer
(`summarize_text_smart` in backend/app/nlp/summarizer.py).

Python strings are modelled as `List Char` (one entry per Unicode code
point, matching Python's `len` and indexing).  Each definition below is a
direct translation of the corresponding Python expression; comments cite
the Python source line it embeds.
-/

set_option maxRecDepth 4000

/-- Python `str.isspace` characters relevant here (the ASCII whitespace
characters recognised by `str.strip`, `str.split()` and the regex class
`\s` on the texts this development manipulates: space, tab, newline,
carriage return, vertical tab, form feed). -/
def isWsChar (c : Char) : Bool :=
  c = ' ' || c = '\t' || c = '\n' || c = '\r' || c = Char.ofNat 11 || c = Char.ofNat 12

/-- Python `str.strip()`: drop leading and trailing whitespace. -/
def strip (s : List Char) : List Char :=
  ((s.dropWhile isWsChar).reverse.dropWhile isWsChar).reverse

/-- Python `text.split('\n')`: split at every newline, keeping empty
fragments (`''.split('\n') == ['']`). -/
def splitOnNl : List Char → List (List Char)
  | [] => [[]]
  | c :: cs =>
    let r := splitOnNl cs
    if c = '\n' then [] :: r
    else
      match r with
      | [] => [[c]]
      | g :: gs => (c :: g) :: gs

/-- A line consisting only of whitespace (a "blank line" in the sense of
the regex `\n\s*\n`; the empty line counts). -/
def wsOnly (l : List Char) : Bool := l.all isWsChar

/-- Group a list of lines into the maximal runs of non-blank lines, the
runs being separated by blank (whitespace-only) lines.  This is how the
regex split `re.split(r'\n\s*\n', text)` partitions a text: every match
of the pattern consumes the newline before a maximal run of
whitespace-only lines together with the run itself up to its final
newline, so the fragments are exactly the maximal blocks of consecutive
non-blank lines (up to surrounding whitespace, which the caller strips).
Empty groups stand for fragments that strip to nothing. -/
def lineGroups : List (List Char) → List (List (List Char))
  | [] => [[]]
  | l :: ls =>
    match lineGroups ls with
    | [] => [[]]
    | g :: gs => if wsOnly l then [] :: g :: gs else (l :: g) :: gs

/-- Python `'\n'.join(lines)`. -/
def joinNL : List (List Char) → List Char
  | [] => []
  | [l] => l
  | l :: l2 :: ls => l ++ '\n' :: joinNL (l2 :: ls)

/-- Python `[p.strip() for p in re.split(r'\n\s*\n', text) if p.strip()]`
(summarizer.py line 222), via the blank-line grouping of the text's
lines described at `lineGroups`. -/
def blankLineSplit (t : List Char) : List (List Char) :=
  ((lineGroups (splitOnNl t)).map (fun g => strip (joinNL g))).filter
    (fun p => !p.isEmpty)

/-- Paragraph extraction (summarizer.py lines 222–226): split on blank
lines; if that yields at most one paragraph, re-split on single newlines
keeping only fragments whose stripped length exceeds 20
(`if p.strip() and len(p.strip()) > 20`). -/
def paragraphsOf (t : List Char) : List (List Char) :=
  let paras := blankLineSplit t
  if paras.length ≤ 1 then
    ((splitOnNl t).map strip).filter (fun p => 20 < p.length)
  else paras

/-- Character budget per length tier (summarizer.py lines 229–235,
`limits.get(length, 2500)`). -/
def charLimit (length : List Char) : Nat :=
  if length = "short".data then 1000
  else if length = "medium".data then 2500
  else if length = "long".data then 5000
  else 2500

/-- The fixed keyword list `important_keywords`
(summarizer.py lines 238–243). -/
def importantKeywords : List (List Char) :=
  ["agreement".data, "party".data, "parties".data, "hereby".data,
   "shall".data, "terms".data, "conditions".data, "obligations".data,
   "rights".data, "pursuant".data, "effective".data, "termination".data,
   "liability".data, "indemnification".data, "confidential".data,
   "whereas".data, "therefore".data, "notwithstanding".data]

/-- Python `str.lower()` on the ASCII fragment: map `'A'..'Z'` to
`'a'..'z'`, leave every other character unchanged. -/
def pyLowerChar (c : Char) : Char :=
  if 'A' ≤ c ∧ c ≤ 'Z' then Char.ofNat (c.toNat + 32) else c

/-- Python `s.lower()` (ASCII fragment, see `pyLowerChar`). -/
def lowerStr (s : List Char) : List Char := s.map pyLowerChar

/-- Whether `needle` is an initial segment of `hay`. -/
def startsWith : List Char → List Char → Bool
  | [], _ => true
  | _ :: _, [] => false
  | a :: as, b :: bs => a = b && startsWith as bs

/-- Python substring containment `needle in hay`. -/
def containsSub (needle : List Char) : List Char → Bool
  | [] => startsWith needle []
  | c :: t => startsWith needle (c :: t) || containsSub needle t

/-- Paragraph score (summarizer.py line 248):
`sum(1 for keyword in important_keywords if keyword.lower() in para.lower())`,
i.e. the number of keywords occurring case-insensitively in the
paragraph, each keyword contributing at most one point. -/
def scoreOf (p : List Char) : Nat :=
  (importantKeywords.filter
    (fun k => containsSub (lowerStr k) (lowerStr p))).length

/-- Insert one scored paragraph into an already sorted (by score,
descending) list, placing it before the first entry whose score does not
exceed its own.  This is the insertion step of a stable descending sort. -/
def insertDesc (x : Nat × List Char) :
    List (Nat × List Char) → List (Nat × List Char)
  | [] => [x]
  | y :: ys => if y.1 ≤ x.1 then x :: y :: ys else y :: insertDesc x ys

/-- Stable sort by score descending (summarizer.py line 252,
`scored_paragraphs.sort(key=lambda x: x[0], reverse=True)`; Python's
sort is stable and `reverse=True` preserves the original order of
equal-keyed entries, which this insertion sort reproduces — any two
stable sorts under the same key order compute the same list). -/
def sortDesc : List (Nat × List Char) → List (Nat × List Char)
  | [] => []
  | x :: xs => insertDesc x (sortDesc xs)

/-- The scored-and-sorted paragraph list of a (stripped) text
(summarizer.py lines 246–252). -/
def sortedScoredOf (t : List Char) : List (Nat × List Char) :=
  sortDesc ((paragraphsOf t).map (fun p => (scoreOf p, p)))

/-- Not being a period, as a Boolean predicate. -/
def notPeriod (c : Char) : Bool := c ≠ '.'

/-- Python `s.rsplit('.', 1)[0]`: everything before the last `'.'`, or
`s` itself when `s` contains no `'.'` (summarizer.py line 267). -/
def beforeLastPeriod (s : List Char) : List Char :=
  if '.' ∈ s then ((s.reverse.dropWhile notPeriod).drop 1).reverse
  else s

/-- The greedy selection loop (summarizer.py lines 255–277), returning
the accepted paragraphs together with the final running character total
`total_chars`.  The stop test `total_chars >= char_limit * 0.8` is
rendered as `8 * limit ≤ 10 * total`: for every limit the table can
produce (1000, 2500, 5000) the float product `char_limit * 0.8` is
exactly the real product, so the integer comparison is faithful. -/
def selectLoop (limit : Nat) :
    List (Nat × List Char) → Nat → List (List Char) × Nat
  | [], total => ([], total)
  | (_, para) :: rest, total =>
    -- line 262: skip when the paragraph no longer fits and total > 0
    if limit < total + para.length ∧ 0 < total then
      selectLoop limit rest total
    -- lines 266–270: oversized first paragraph is truncated, then stop
    else if total = 0 ∧ limit < para.length then
      let tr := beforeLastPeriod (para.take limit) ++ ['.']
      ([tr], total + tr.length)
    else
      -- lines 272–277: accept, then stop at 80% of the budget
      let total2 := total + para.length
      if 8 * limit ≤ 10 * total2 then ([para], total2)
      else
        let r := selectLoop limit rest total2
        (para :: r.1, r.2)

/-- The paragraphs accepted by the greedy loop, starting from
`total_chars = 0` (summarizer.py lines 255–277). -/
def selectedParts (t : List Char) (limit : Nat) : List (List Char) :=
  (selectLoop limit (sortedScoredOf t) 0).1

/-- Python `"\n\n".join(parts)` (summarizer.py line 287). -/
def joinBlank : List (List Char) → List Char
  | [] => []
  | [p] => p
  | p :: q :: ps => p ++ '\n' :: '\n' :: joinBlank (q :: ps)

/-- The joined paragraph section of the summary, before the footer. -/
def sectionOf (t : List Char) (limit : Nat) : List Char :=
  joinBlank (selectedParts t limit)

/-- Total character count of a list of paragraphs (the quantity the
loop's `total_chars` accumulates — separators not included). -/
def sumLens (ps : List (List Char)) : Nat := (ps.map List.length).sum

/-- Python no-argument `summary.split()`: the maximal runs of
non-whitespace characters (used for the footer's word count,
summarizer.py line 290). -/
def wordsWs : List Char → List Char → List (List Char)
  | acc, [] => if acc.isEmpty then [] else [acc.reverse]
  | acc, c :: cs =>
    if isWsChar c then
      if acc.isEmpty then wordsWs [] cs else acc.reverse :: wordsWs [] cs
    else wordsWs (c :: acc) cs

/-- Python `str(n)` for a natural number, via fuel-bounded division by
ten (the fuel `n + 1` always suffices). -/
def natDigitsCore : Nat → Nat → List Char
  | 0, _ => []
  | fuel + 1, n =>
    if n < 10 then [Char.ofNat (48 + n)]
    else natDigitsCore fuel (n / 10) ++ [Char.ofNat (48 + n % 10)]

/-- Decimal rendering of a natural number, as Python's `str`. -/
def natDigits (n : Nat) : List Char := natDigitsCore (n + 1) n

/-- The metadata footer (summarizer.py line 293):
`f"\n\n---\n📄 Summary: {para_count} key section(s) | {word_count} words"`. -/
def footerOf (pc wc : Nat) : List Char :=
  "\n\n---\n📄 Summary: ".data ++ natDigits pc ++
    " key section(s) | ".data ++ natDigits wc ++ " words".data

/-- The sentinel returned for empty input (summarizer.py line 216). -/
def sentinelMsg : List Char := "⚠️ No text available to summarize.".data

/-- The trailing note added when the summary is materially shorter than
the source (summarizer.py line 297). -/
def moreSuffix : List Char := " | Full document contains additional details".data

/-- The no-selection fallback (summarizer.py lines 279–284): take the
first paragraph — or the whole stripped text when the paragraph list is
empty — truncating it at the limit, and return it bare. -/
def fallbackResult (t : List Char) (limit : Nat) : List Char :=
  let firstPara := match paragraphsOf t with | [] => t | p :: _ => p
  if limit < firstPara.length then
    beforeLastPeriod (firstPara.take limit) ++ ['.']
  else firstPara

/-- Python `summarize_text_smart(text, length)` (summarizer.py lines 203–299).
The comparison `len(summary) < len(text) * 0.9` is rendered as
`10 * len(summary) < 9 * len(text)`: the float `0.9` is within a
quarter ulp of 9/10, so the product `len(text) * 0.9` always rounds to
a value on the same side of every integer as the real product, making
the integer comparison exact. -/
def summarize_text_smart (text length : List Char) : List Char :=
  if strip text = [] then sentinelMsg
  else
    let t := strip text
    let limit := charLimit length
    let parts := selectedParts t limit
    if parts = [] then fallbackResult t limit
    else
      let sec := joinBlank parts
      let base := sec ++ footerOf parts.length (wordsWs [] sec).length
      if 10 * base.length < 9 * t.length then base ++ moreSuffix else base

/-- The character budget after the footer is appended
(summarizer.py line 293: the variable `summary` after
`summary += f"..."`). -/
def assembledSummary (t : List Char) (limit : Nat) : List Char :=
  sectionOf t limit ++
    footerOf (selectedParts t limit).length
      (wordsWs [] (sectionOf t limit)).length

/-- Whether the first (highest-ranked) scored paragraph fits the budget;
`true` for the empty list.  The greedy loop truncates exactly when this
is `false`. -/
def headLenLE (l : List (Nat × List Char)) (limit : Nat) : Bool :=
  match l with
  | [] => true
  | x :: _ => decide (x.2.length ≤ limit)

/-- The claim "every non-sentinel output ends with a footer line": there
are counts `pc`, `wc` such that the output ends with the rendered
footer. -/
def endsWithFooter (out : List Char) : Prop :=
  ∃ pc wc : Nat, ∃ pre : List Char, out = pre ++ footerOf pc wc

/-- Two keyword-free paragraphs of 500 characters each, blank-line
separated: with the "short" budget both are accepted (500 + 500 = 1000
is not over the limit and only then does the total reach 80%), so the
joined section measures 1002 characters. -/
def cexC1text : List Char :=
  List.replicate 500 '0' ++ '\n' :: '\n' :: List.replicate 500 '1'

/-- A single 1500-character paragraph whose only period sits at index
950, the shape named by the truncation-boundary scenario. -/
def c3para : List Char :=
  List.replicate 950 'a' ++ '.' :: List.replicate 549 'b'

/-- Three equal-length keyword-free paragraphs, for the stable-sort
scenario. -/
def paraA : List Char := List.replicate 30 '1'

def paraB : List Char := List.replicate 30 '2'

def paraC : List Char := List.replicate 30 '3'

def tABC : List Char :=
  paraA ++ '\n' :: '\n' :: paraB ++ '\n' :: '\n' :: paraC

/-- A paragraph containing the keywords "shall" (twice), "hereby" and
"termination", and no other keyword. -/
def ex5 : List Char := "shall shall hereby termination.".data

/-- A keyword-free paragraph of the same length as `ex5`. -/
def zero5 : List Char := List.replicate 31 'x'

def t5a : List Char := ex5 ++ '\n' :: '\n' :: zero5

def t5b : List Char := zero5 ++ '\n' :: '\n' :: ex5

/-- One 20-character line and one 25-character line, newline separated:
the blank-line split sees a single paragraph, so the newline re-split
applies its 20-character filter. -/
def cexC6text : List Char :=
  List.replicate 20 '1' ++ '\n' :: List.replicate 25 '2'

/-- A 10-character text: too short for the re-split filter, so no
paragraph survives and the fallback path returns it bare. -/
def shortLineText : List Char := "short line".data

theorem mem_insertDesc {x y : Nat × List Char}
    {l : List (Nat × List Char)} :
    y ∈ insertDesc x l ↔ y = x ∨ y ∈ l := by
  induction l with
  | nil => simp [insertDesc]
  | cons z zs ih =>
    by_cases h : z.1 ≤ x.1
    · simp [insertDesc, h]
    · simp only [insertDesc, if_neg h, List.mem_cons, ih]
      tauto

theorem length_insertDesc (x : Nat × List Char)
    (l : List (Nat × List Char)) :
    (insertDesc x l).length = l.length + 1 := by
  induction l with
  | nil => rfl
  | cons z zs ih =>
    by_cases h : z.1 ≤ x.1
    · simp [insertDesc, h]
    · simp [insertDesc, h, ih]

theorem mem_sortDesc {y : Nat × List Char} {l : List (Nat × List Char)} :
    y ∈ sortDesc l ↔ y ∈ l := by
  induction l with
  | nil => simp [sortDesc]
  | cons z zs ih => simp [sortDesc, mem_insertDesc, ih]

theorem length_sortDesc (l : List (Nat × List Char)) :
    (sortDesc l).length = l.length := by
  induction l with
  | nil => rfl
  | cons z zs ih => simp [sortDesc, length_insertDesc, ih]

theorem pairwise_insertDesc {x : Nat × List Char}
    {l : List (Nat × List Char)}
    (h : l.Pairwise (fun a b => b.1 ≤ a.1)) :
    (insertDesc x l).Pairwise (fun a b => b.1 ≤ a.1) := by
  induction l with
  | nil => simp [insertDesc]
  | cons z zs ih =>
    rcases List.pairwise_cons.1 h with ⟨hz, hzs⟩
    by_cases hcmp : z.1 ≤ x.1
    · rw [insertDesc, if_pos hcmp]
      refine List.pairwise_cons.2 ⟨?_, h⟩
      intro y hy
      rcases List.mem_cons.1 hy with rfl | hy2
      · exact hcmp
      · exact le_trans (hz y hy2) hcmp
    · rw [insertDesc, if_neg hcmp]
      refine List.pairwise_cons.2 ⟨?_, ih hzs⟩
      intro y hy
      rcases mem_insertDesc.1 hy with rfl | hy2
      · exact le_of_not_le hcmp
      · exact hz y hy2

/-- The sorted scored-paragraph list is ordered by score descending. -/
theorem pairwise_sortDesc (l : List (Nat × List Char)) :
    (sortDesc l).Pairwise (fun a b => b.1 ≤ a.1) := by
  induction l with
  | nil => simp [sortDesc]
  | cons z zs ih => exact pairwise_insertDesc ih

/-- Inserting an element into a list commutes with filtering by an exact
score: the elements `insertDesc` passes over all have a strictly larger
score than the inserted one, so among the entries of any fixed score the
inserted element lands first and the rest keep their order. -/
theorem filter_insertDesc (x : Nat × List Char)
    (l : List (Nat × List Char)) (s : Nat) :
    (insertDesc x l).filter (fun y => y.1 == s) =
      if x.1 = s then x :: l.filter (fun y => y.1 == s)
      else l.filter (fun y => y.1 == s) := by
  induction l with
  | nil => by_cases h : x.1 = s <;> simp [insertDesc, h]
  | cons z zs ih =>
    by_cases hcmp : z.1 ≤ x.1
    · rw [insertDesc, if_pos hcmp]
      by_cases hx : x.1 = s <;> simp [List.filter_cons, hx]
    · rw [insertDesc, if_neg hcmp]
      by_cases hx : x.1 = s
      · have hzne : ¬ z.1 = s := fun hz => hcmp (le_of_eq (by rw [hz, hx]))
        simp [List.filter_cons, hx, hzne, ih]
      · simp only [List.filter_cons, ih, if_neg hx]

/-- Stability of the sort: filtering the sorted list down to the entries
of any one score yields those entries in their original order. -/
theorem sortDesc_stable (l : List (Nat × List Char)) (s : Nat) :
    (sortDesc l).filter (fun y => y.1 == s) =
      l.filter (fun y => y.1 == s) := by
  induction l with
  | nil => rfl
  | cons z zs ih =>
    rw [sortDesc, filter_insertDesc]
    by_cases hz : z.1 = s
    · simp [List.filter_cons, hz, ih]
    · simp [List.filter_cons, hz, ih]

theorem sumLens_nil : sumLens [] = 0 := rfl

theorem sumLens_cons (p : List Char) (ps : List (List Char)) :
    sumLens (p :: ps) = p.length + sumLens ps := by
  simp [sumLens]

theorem beforeLastPeriod_length_le (s : List Char) :
    (beforeLastPeriod s).length ≤ s.length := by
  unfold beforeLastPeriod
  by_cases h : '.' ∈ s
  · rw [if_pos h]
    calc (((s.reverse.dropWhile notPeriod).drop 1).reverse).length
        = ((s.reverse.dropWhile notPeriod).drop 1).length := by
          rw [List.length_reverse]
      _ ≤ (s.reverse.dropWhile notPeriod).length :=
          (List.length_drop _ _) ▸ Nat.sub_le _ _
      _ ≤ s.reverse.length := (List.dropWhile_sublist _).length_le
      _ = s.length := List.length_reverse s
  · rw [if_neg h]

/-- The running total returned by the loop is the starting total plus
the characters of all accepted paragraphs. -/
theorem selectLoop_snd_eq (limit : Nat) (l : List (Nat × List Char)) :
    ∀ total, (selectLoop limit l total).2 =
      total + sumLens (selectLoop limit l total).1 := by
  induction l with
  | nil => intro total; simp [selectLoop, sumLens]
  | cons x rest ih =>
    intro total
    obtain ⟨sc, para⟩ := x
    rw [selectLoop]
    by_cases h1 : limit < total + para.length ∧ 0 < total
    · rw [if_pos h1]; exact ih total
    · rw [if_neg h1]
      by_cases h2 : total = 0 ∧ limit < para.length
      · rw [if_pos h2]
        simp [sumLens]
      · rw [if_neg h2]
        by_cases h3 : 8 * limit ≤ 10 * (total + para.length)
        · rw [if_pos h3]
          simp [sumLens]
        · rw [if_neg h3]
          simp only [sumLens_cons, ih (total + para.length)]
          omega

/-- Once the running total is positive it never passes the budget: a
paragraph is only accepted when it still fits. -/
theorem selectLoop_snd_le (limit : Nat) (l : List (Nat × List Char)) :
    ∀ total, 0 < total → total ≤ limit →
      (selectLoop limit l total).2 ≤ limit := by
  induction l with
  | nil => intro total _ h2; simpa [selectLoop] using h2
  | cons x rest ih =>
    intro total hpos hle
    obtain ⟨sc, para⟩ := x
    rw [selectLoop]
    by_cases h1 : limit < total + para.length ∧ 0 < total
    · rw [if_pos h1]; exact ih total hpos hle
    · rw [if_neg h1]
      have hfit : total + para.length ≤ limit := by
        rcases Nat.lt_or_ge limit (total + para.length) with h | h
        · exact absurd ⟨h, hpos⟩ h1
        · exact h
      rw [if_neg (by omega : ¬ (total = 0 ∧ limit < para.length))]
      by_cases h3 : 8 * limit ≤ 10 * (total + para.length)
      · rw [if_pos h3]; exact hfit
      · rw [if_neg h3]
        exact ih (total + para.length) (by omega) hfit

/-- Started from a zero total on nonempty-paragraph entries, the loop's
final total is at most `limit + 1`, and at most `limit` whenever the
first-ranked paragraph fits the budget on its own. -/
theorem selectLoop_zero_le (limit : Nat) (l : List (Nat × List Char))
    (hne : ∀ x ∈ l, x.2 ≠ ([] : List Char)) :
    (selectLoop limit l 0).2 ≤ limit + 1 ∧
      (headLenLE l limit = true → (selectLoop limit l 0).2 ≤ limit) := by
  cases l with
  | nil => simp [selectLoop]
  | cons x rest =>
    obtain ⟨sc, para⟩ := x
    rw [selectLoop]
    rw [if_neg (by simp : ¬ (limit < 0 + para.length ∧ 0 < 0))]
    by_cases h2 : (0 : Nat) = 0 ∧ limit < para.length
    · rw [if_pos h2]
      constructor
      · have hb := beforeLastPeriod_length_le (para.take limit)
        have ht : (para.take limit).length ≤ limit := by
          rw [List.length_take]; omega
        simp only [List.length_append, List.length_cons,
          List.length_nil]
        omega
      · intro hhead
        exfalso
        simp only [headLenLE, decide_eq_true_eq] at hhead
        omega
    · rw [if_neg h2]
      have hfit : para.length ≤ limit := by omega
      have hpos : 0 < para.length :=
        List.length_pos.2 (hne (sc, para) (List.mem_cons_self _ _))
      by_cases h3 : 8 * limit ≤ 10 * (0 + para.length)
      · rw [if_pos h3]
        constructor
        · omega
        · intro _; omega
      · rw [if_neg h3]
        have hrec := selectLoop_snd_le limit rest (0 + para.length)
          (by omega) (by omega)
        constructor
        · show (selectLoop limit rest (0 + para.length)).2 ≤ limit + 1
          omega
        · intro _
          show (selectLoop limit rest (0 + para.length)).2 ≤ limit
          exact hrec

/-- The loop always accepts its first entry (whole or truncated): the
skip guard requires a positive running total. -/
theorem selectLoop_fst_ne_nil (limit : Nat) (x : Nat × List Char)
    (rest : List (Nat × List Char)) :
    (selectLoop limit (x :: rest) 0).1 ≠ [] := by
  obtain ⟨sc, para⟩ := x
  rw [selectLoop]
  rw [if_neg (by simp : ¬ (limit < 0 + para.length ∧ 0 < 0))]
  by_cases h2 : (0 : Nat) = 0 ∧ limit < para.length
  · rw [if_pos h2]; simp
  · rw [if_neg h2]
    by_cases h3 : 8 * limit ≤ 10 * (0 + para.length)
    · rw [if_pos h3]; simp
    · rw [if_neg h3]; simp

/-- Every paragraph either split path produces is nonempty: the
blank-line split drops empty fragments and the newline re-split keeps
only fragments longer than 20 characters. -/
theorem paragraphsOf_mem_ne_nil {t p : List Char}
    (h : p ∈ paragraphsOf t) : p ≠ [] := by
  unfold paragraphsOf at h
  by_cases hb : (blankLineSplit t).length ≤ 1
  · rw [if_pos hb] at h
    rcases List.mem_filter.1 h with ⟨_, hlen⟩
    have : 20 < p.length := by simpa using hlen
    intro hnil
    rw [hnil] at this
    simp at this
  · rw [if_neg hb] at h
    rcases List.mem_filter.1 h with ⟨_, hne⟩
    simpa using hne

/-- Every entry of the scored-and-sorted list carries a nonempty
paragraph. -/
theorem sortedScoredOf_mem_ne_nil {t : List Char} {x : Nat × List Char}
    (h : x ∈ sortedScoredOf t) : x.2 ≠ ([] : List Char) := by
  unfold sortedScoredOf at h
  rcases List.mem_map.1 (mem_sortDesc.1 h) with ⟨p, hp, rfl⟩
  exact paragraphsOf_mem_ne_nil hp

/-- If every element of the first list passes the predicate, `dropWhile`
jumps over it. -/
theorem dropWhile_append_all {p : Char → Bool} {l1 l2 : List Char}
    (h : ∀ x ∈ l1, p x = true) :
    (l1 ++ l2).dropWhile p = l2.dropWhile p := by
  induction l1 with
  | nil => rfl
  | cons c cs ih =>
    rw [List.cons_append, List.dropWhile_cons,
      if_pos (h c (List.mem_cons_self _ _))]
    exact ih fun x hx => h x (List.mem_cons_of_mem _ hx)

/-- Computation rule for `rsplit('.', 1)[0]`: cutting a string of shape
`A ++ '.' :: B` with no period in `B` keeps exactly `A`. -/
theorem beforeLastPeriod_append {A B : List Char} (h : '.' ∉ B) :
    beforeLastPeriod (A ++ '.' :: B) = A := by
  unfold beforeLastPeriod
  rw [if_pos (by simp : '.' ∈ A ++ '.' :: B)]
  have hrev : (A ++ '.' :: B).reverse = B.reverse ++ '.' :: A.reverse := by
    rw [List.reverse_append, List.reverse_cons, List.append_assoc]
    simp
  have hall : ∀ x ∈ B.reverse, notPeriod x = true := by
    intro x hx
    have hxB : x ∈ B := List.mem_reverse.1 hx
    simp only [notPeriod, decide_eq_true_eq]
    intro hxe
    exact h (hxe ▸ hxB)
  rw [hrev, dropWhile_append_all hall, List.dropWhile_cons]
  rw [if_neg (by simp [notPeriod])]
  simp

theorem dropWhile_notPeriod_mem {r : List Char} (hmem : '.' ∈ r) :
    ∃ v, r.dropWhile notPeriod = '.' :: v := by
  induction r with
  | nil => cases hmem
  | cons c cs ih =>
    rw [List.dropWhile_cons]
    by_cases hc : c = '.'
    · subst hc
      rw [if_neg (by simp [notPeriod])]
      exact ⟨cs, rfl⟩
    · rw [if_pos (by simp [notPeriod, hc])]
      rcases List.mem_cons.1 hmem with hceq | hcs
      · exact absurd hceq.symm hc
      · exact ih hcs

/-- Characterisation of the truncation cut: when the string holds a
period, it splits as the kept part, that last period, and a tail free of
periods ("no partial sentence beyond it"). -/
theorem beforeLastPeriod_spec {s : List Char} (h : '.' ∈ s) :
    ∃ w, s = beforeLastPeriod s ++ '.' :: w ∧ '.' ∉ w := by
  rcases dropWhile_notPeriod_mem (List.mem_reverse.2 h) with ⟨v, hv⟩
  refine ⟨(s.reverse.takeWhile notPeriod).reverse, ?_, ?_⟩
  · unfold beforeLastPeriod
    rw [if_pos h, hv]
    show s = v.reverse ++ '.' :: (s.reverse.takeWhile notPeriod).reverse
    have hsplit : s.reverse.takeWhile notPeriod ++ ('.' :: v) = s.reverse := by
      rw [← hv]
      exact List.takeWhile_append_dropWhile notPeriod s.reverse
    have hs : s = ('.' :: v).reverse ++ (s.reverse.takeWhile notPeriod).reverse := by
      rw [← List.reverse_append, hsplit, List.reverse_reverse]
    conv_lhs => rw [hs]
    rw [List.reverse_cons, List.append_assoc]
    simp
  · intro hmem2
    have hp := List.mem_takeWhile_imp (List.mem_reverse.1 hmem2)
    simp [notPeriod] at hp

/-- Dropping leading whitespace does nothing on a whitespace-free
string. -/
theorem dropWhile_ws_eq_self {s : List Char}
    (h : ∀ c ∈ s, isWsChar c = false) : s.dropWhile isWsChar = s := by
  cases s with
  | nil => rfl
  | cons c cs =>
    rw [List.dropWhile_cons, if_neg]
    rw [h c (List.mem_cons_self _ _)]
    simp

/-- The function `strip` fixes any string containing no whitespace at all. -/
theorem strip_of_no_ws {s : List Char}
    (h : ∀ c ∈ s, isWsChar c = false) : strip s = s := by
  unfold strip
  rw [dropWhile_ws_eq_self h,
    dropWhile_ws_eq_self (fun c hc => h c (List.mem_reverse.1 hc)),
    List.reverse_reverse]

/-- A newline-free string is a single line. -/
theorem splitOnNl_no_nl {s : List Char} (h : '\n' ∉ s) :
    splitOnNl s = [s] := by
  induction s with
  | nil => rfl
  | cons c cs ih =>
    have hc : ¬ c = '\n' := fun hceq => h (hceq ▸ List.mem_cons_self _ _)
    have hcs : '\n' ∉ cs := fun hm => h (List.mem_cons_of_mem _ hm)
    rw [splitOnNl]
    simp only [if_neg hc, ih hcs]

/-- The paragraph list of a single newline-free, whitespace-free line
longer than 20 characters: the line itself, via the newline re-split
branch. -/
theorem paragraphsOf_single_line {s : List Char}
    (hws : ∀ c ∈ s, isWsChar c = false) (hnl : '\n' ∉ s)
    (hlen : 20 < s.length) : paragraphsOf s = [s] := by
  have hsplit : splitOnNl s = [s] := splitOnNl_no_nl hnl
  have hstrip : strip s = s := strip_of_no_ws hws
  have hblank : blankLineSplit s = [s] := by
    unfold blankLineSplit
    rw [hsplit]
    have hgroups : lineGroups [s] = [[s]] := by
      have hwsf : wsOnly s = false := by
        cases hs2 : s with
        | nil => rw [hs2] at hlen; simp at hlen
        | cons c cs =>
          unfold wsOnly
          rw [List.all_cons,
            hws c (by rw [hs2]; exact List.mem_cons_self _ _)]
          rfl
      rw [lineGroups, lineGroups, hwsf]
      rfl
    rw [hgroups]
    simp only [List.map_cons, List.map_nil, joinNL, hstrip]
    rw [List.filter_cons]
    have hne : s ≠ [] := by intro hnil; rw [hnil] at hlen; simp at hlen
    rw [if_pos (by simpa using hne)]
    rfl
  unfold paragraphsOf
  rw [hblank]
  rw [if_pos (by simp)]
  rw [hsplit]
  simp only [List.map_cons, List.map_nil, hstrip]
  rw [List.filter_cons, if_pos (by simpa using hlen)]
  rfl

/-- The paragraph list is empty exactly when the blank-line split found
at most one paragraph and no single line of the text survives the
20-character filter of the newline re-split. -/
theorem paragraphsOf_eq_nil_iff (t : List Char) :
    paragraphsOf t = [] ↔
      ((blankLineSplit t).length ≤ 1 ∧
        ∀ line ∈ splitOnNl t, (strip line).length ≤ 20) := by
  unfold paragraphsOf
  by_cases hb : (blankLineSplit t).length ≤ 1
  · rw [if_pos hb]
    simp only [hb, true_and]
    rw [List.filter_eq_nil_iff]
    constructor
    · intro h line hline
      have := h (strip line)
        (List.mem_map.2 ⟨line, hline, rfl⟩)
      simpa using this
    · intro h p hp
      rcases List.mem_map.1 hp with ⟨line, hline, rfl⟩
      simpa using h line hline
  · rw [if_neg hb]
    constructor
    · intro h
      rw [h] at hb
      simp at hb
    · intro h
      exact absurd h.1 hb

/-- Membership in the newline re-split paragraph list: exactly the
stripped lines longer than 20 characters. -/
theorem paragraphsOf_mem_iff {t p : List Char}
    (h : (blankLineSplit t).length ≤ 1) :
    p ∈ paragraphsOf t ↔
      (20 < p.length ∧ ∃ line ∈ splitOnNl t, strip line = p) := by
  unfold paragraphsOf
  rw [if_pos h, List.mem_filter]
  constructor
  · rintro ⟨hmem, hlen⟩
    rcases List.mem_map.1 hmem with ⟨line, hline, rfl⟩
    exact ⟨by simpa using hlen, line, hline, rfl⟩
  · rintro ⟨hlen, line, hline, rfl⟩
    exact ⟨List.mem_map.2 ⟨line, hline, rfl⟩, by simpa using hlen⟩

/-- On empty or whitespace-only input the function returns the sentinel
(summarizer.py lines 215–216). -/
theorem summarize_sentinel (text length : List Char)
    (h : strip text = []) :
    summarize_text_smart text length = sentinelMsg := by
  unfold summarize_text_smart
  rw [if_pos h]

/-- On the main path — nonempty stripped text, at least one accepted
paragraph — the output is the assembled summary (paragraph section plus
footer), with the additional-details note appended exactly when the
assembled summary is shorter than 90% of the stripped text
(summarizer.py lines 286–299). -/
theorem summarize_main_eq (text length : List Char)
    (h1 : strip text ≠ [])
    (h2 : selectedParts (strip text) (charLimit length) ≠ []) :
    summarize_text_smart text length =
      (if 10 * (assembledSummary (strip text) (charLimit length)).length <
          9 * (strip text).length then
        assembledSummary (strip text) (charLimit length) ++ moreSuffix
      else assembledSummary (strip text) (charLimit length)) := by
  unfold summarize_text_smart
  rw [if_neg h1]
  show (if selectedParts (strip text) (charLimit length) = [] then _
    else _) = _
  rw [if_neg h2]
  rfl

/-- On the fallback path — nonempty stripped text but no accepted
paragraph — the output is the bare (possibly truncated) first paragraph
with no footer (summarizer.py lines 279–284). -/
theorem summarize_fallback_eq (text length : List Char)
    (h1 : strip text ≠ [])
    (h2 : selectedParts (strip text) (charLimit length) = []) :
    summarize_text_smart text length =
      fallbackResult (strip text) (charLimit length) := by
  unfold summarize_text_smart
  rw [if_neg h1]
  show (if selectedParts (strip text) (charLimit length) = [] then _
    else _) = _
  rw [if_pos h2]

theorem footerOf_length_ge (pc wc : Nat) : 41 ≤ (footerOf pc wc).length := by
  unfold footerOf
  simp only [List.length_append, List.length_cons, List.length_nil]
  omega

/-- The loop accepts only the truncated head when the first-ranked
paragraph on its own exceeds the budget. -/
theorem selectLoop_trunc (limit s0 : Nat) (p0 : List Char)
    (rest : List (Nat × List Char)) (h : limit < p0.length) :
    (selectLoop limit ((s0, p0) :: rest) 0).1 =
      [beforeLastPeriod (p0.take limit) ++ ['.']] := by
  rw [selectLoop]
  rw [if_neg (by simp : ¬ (limit < 0 + p0.length ∧ 0 < 0))]
  rw [if_pos ⟨rfl, h⟩]

theorem c3para_no_ws : ∀ c ∈ c3para, isWsChar c = false := by
  intro c hc
  rcases List.mem_append.1 hc with h | h
  · rw [(List.mem_replicate.1 h).2]; decide
  · rcases List.mem_cons.1 h with rfl | h2
    · decide
    · rw [(List.mem_replicate.1 h2).2]; decide

theorem c3para_no_nl : '\n' ∉ c3para := by
  intro h
  have := c3para_no_ws '\n' h
  simp [isWsChar] at this

theorem c3para_length : c3para.length = 1500 := by
  unfold c3para
  rw [List.length_append, List.length_cons, List.length_replicate,
    List.length_replicate]

theorem strip_c3 : strip c3para = c3para := strip_of_no_ws c3para_no_ws

theorem c3_paragraphs : paragraphsOf c3para = [c3para] :=
  paragraphsOf_single_line c3para_no_ws c3para_no_nl
    (by rw [c3para_length]; omega)

theorem c3_sorted :
    sortedScoredOf c3para = [(scoreOf c3para, c3para)] := by
  unfold sortedScoredOf
  rw [c3_paragraphs]
  rfl

theorem c3_take :
    c3para.take 1000 =
      List.replicate 950 'a' ++ '.' :: List.replicate 49 'b' := by
  have h : (1000 : Nat) = (List.replicate 950 'a').length + 50 := by
    rw [List.length_replicate]
  show (List.replicate 950 'a' ++ '.' :: List.replicate 549 'b').take 1000
    = _
  rw [h, List.take_append, show (50 : Nat) = 49 + 1 from rfl,
    List.take_succ_cons, List.take_replicate]
  norm_num

theorem c3_before :
    beforeLastPeriod (c3para.take 1000) = List.replicate 950 'a' := by
  rw [c3_take]
  exact beforeLastPeriod_append (by simp [List.mem_replicate])

theorem c3_drop : c3para.drop 950 = '.' :: List.replicate 549 'b' := by
  have h := List.drop_left (List.replicate 950 'a')
    ('.' :: List.replicate 549 'b')
  rw [List.length_replicate] at h
  exact h

/-- C9 (confirmed): the character budget resolved from the length tier
is exactly "short" ↦ 1000, "medium" ↦ 2500, "long" ↦ 5000, and any
other string falls back to 2500, the "medium" budget. -/
theorem C9_tier_mapping :
    charLimit "short".data = 1000 ∧ charLimit "medium".data = 2500 ∧
      charLimit "long".data = 5000 ∧
      ∀ s : List Char, s ≠ "short".data → s ≠ "medium".data →
        s ≠ "long".data → charLimit s = 2500 := by
  refine ⟨by decide, by decide, by decide, ?_⟩
  intro s h1 h2 h3
  unfold charLimit
  rw [if_neg h1, if_neg h2, if_neg h3]

theorem C9_tier_mapping_witness : charLimit "unknown".data = 2500 :=
  C9_tier_mapping.2.2.2 "unknown".data (by decide) (by decide) (by decide)

/-- C8 (confirmed): for every tier string, an empty or whitespace-only
text — i.e. one whose `strip` is empty — yields the fixed
"No text available" sentinel. -/
theorem C8_empty_sentinel (text length : List Char)
    (h : strip text = []) :
    summarize_text_smart text length = sentinelMsg ∧
      sentinelMsg = "⚠️ No text available to summarize.".data :=
  ⟨summarize_sentinel text length h, rfl⟩

theorem C8_empty_sentinel_witness :
    summarize_text_smart "".data "short".data = sentinelMsg ∧
      summarize_text_smart "   \n  ".data "medium".data = sentinelMsg :=
  ⟨(C8_empty_sentinel "".data "short".data (by decide)).1,
   (C8_empty_sentinel "   \n  ".data "medium".data (by decide)).1⟩

/-- C5 (confirmed): each paragraph's score is the number of keywords of
the fixed 18-entry list occurring case-insensitively in it, counted at
most once each — so every score is at most 18 — and the sort places any
higher-scored paragraph before any lower-scored one: the sample
paragraph holding "shall" (twice), "hereby" and "termination" scores 3
and precedes an equal-length zero-scoring paragraph in the sorted list
whichever of the two came first in the text. -/
theorem C5_keyword_scoring :
    importantKeywords.length = 18 ∧
      (∀ p : List Char, scoreOf p ≤ 18) ∧
      (∀ l : List (Nat × List Char),
        (sortDesc l).Pairwise (fun a b => b.1 ≤ a.1)) ∧
      scoreOf ex5 = 3 ∧ scoreOf zero5 = 0 ∧
      ex5.length = zero5.length ∧
      sortedScoredOf (strip t5a) = [(3, ex5), (0, zero5)] ∧
      sortedScoredOf (strip t5b) = [(3, ex5), (0, zero5)] := by
  refine ⟨by decide, ?_, pairwise_sortDesc, by decide, by decide,
    by decide, by decide, by decide⟩
  intro p
  have h := List.length_filter_le
    (fun k => containsSub (lowerStr k) (lowerStr p)) importantKeywords
  have h18 : importantKeywords.length = 18 := by decide
  unfold scoreOf
  omega

/-- C4 (confirmed): the sort is stable — among entries of any fixed
score the sorted list preserves the original order — and concretely
three zero-scoring paragraphs in order [A, B, C] are selected in order
[A, B, C]. -/
theorem C4_stable_sort :
    (∀ (l : List (Nat × List Char)) (s : Nat),
      (sortDesc l).filter (fun y => y.1 == s) =
        l.filter (fun y => y.1 == s)) ∧
      paragraphsOf (strip tABC) = [paraA, paraB, paraC] ∧
      (paragraphsOf (strip tABC)).map scoreOf = [0, 0, 0] ∧
      selectedParts (strip tABC) (charLimit "medium".data) =
        [paraA, paraB, paraC] :=
  ⟨sortDesc_stable, by decide, by decide, by decide⟩

/-- C6 (counterexample): in the newline re-split regime, a line whose
trimmed length is exactly 20 characters is present among the stripped
fragments but is discarded, not retained, so the claim's boundary case
fails on the code (`len(p.strip()) > 20` is strict). -/
theorem C6_counterexample :
    (blankLineSplit (strip cexC6text)).length ≤ 1 ∧
      (strip (List.replicate 20 '1')).length = 20 ∧
      List.replicate 20 '1' ∈ (splitOnNl (strip cexC6text)).map strip ∧
      List.replicate 20 '1' ∉ paragraphsOf (strip cexC6text) ∧
      paragraphsOf (strip cexC6text) = [List.replicate 25 '2'] := by
  decide

/-- C6 (corrected): when the blank-line split yields at most one
paragraph, the re-split on single newlines keeps exactly the stripped
line fragments whose length exceeds 20 characters — fragments of
trimmed length at most 20, including exactly 20, are discarded. -/
theorem C6_fallback_amended (t p : List Char)
    (h : (blankLineSplit t).length ≤ 1) :
    p ∈ paragraphsOf t ↔
      (20 < p.length ∧ ∃ line ∈ splitOnNl t, strip line = p) :=
  paragraphsOf_mem_iff h

theorem C6_fallback_amended_witness :
    List.replicate 25 '2' ∈ paragraphsOf (strip cexC6text) ↔
      (20 < (List.replicate 25 '2').length ∧
        ∃ line ∈ splitOnNl (strip cexC6text),
          strip line = List.replicate 25 '2') :=
  C6_fallback_amended (strip cexC6text) (List.replicate 25 '2')
    (by decide)

/-- C10 (confirmed): whenever the paragraph-splitting phase yields any
paragraph the greedy loop accepts at least one (the skip guard needs a
positive running total, so the first entry is always taken, whole or
truncated); hence the bare-paragraph fallback is reachable only with an
empty paragraph list, which happens exactly when the blank-line split
yields at most one paragraph and every line's trimmed length is at most
20 characters. -/
theorem C10_fallback_reachability (t : List Char) (limit : Nat) :
    (paragraphsOf t ≠ [] → selectedParts t limit ≠ []) ∧
      (paragraphsOf t = [] ↔
        ((blankLineSplit t).length ≤ 1 ∧
          ∀ line ∈ splitOnNl t, (strip line).length ≤ 20)) := by
  refine ⟨?_, paragraphsOf_eq_nil_iff t⟩
  have hlen : (sortedScoredOf t).length = (paragraphsOf t).length := by
    unfold sortedScoredOf
    rw [length_sortDesc, List.length_map]
  intro hne
  unfold selectedParts
  cases hs : sortedScoredOf t with
  | nil =>
    exfalso
    rw [hs] at hlen
    exact hne (List.length_eq_zero.1 hlen.symm)
  | cons x rest =>
    exact selectLoop_fst_ne_nil limit x rest

theorem C10_fallback_reachability_witness :
    selectedParts (strip tABC) (charLimit "medium".data) ≠ [] :=
  (C10_fallback_reachability (strip tABC)
    (charLimit "medium".data)).1 (by decide)

/-- C1 (counterexample): under tier "short" (budget 1000), a text of
two 500-character paragraphs is fully accepted — no paragraph exceeds
the budget, so the truncation path is not taken — yet the joined
paragraph section measures 1002 characters, because the two-character
blank-line separators are not counted by the loop's running total. -/
theorem C1_counterexample :
    charLimit "short".data = 1000 ∧
      (paragraphsOf (strip cexC1text)).all
        (fun p => decide (p.length ≤ 1000)) = true ∧
      1000 < (sectionOf (strip cexC1text) (charLimit "short".data)).length := by
  refine ⟨by decide, by decide, by decide⟩

/-- C1 (corrected): what the loop bounds is the total character count
of the accepted paragraphs, excluding the blank-line separators: that
total never exceeds `char_limit + 1`, and never exceeds `char_limit`
when the first-ranked paragraph fits the budget on its own (the joined
section itself may exceed the budget by two characters per separator). -/
theorem C1_budget_amended (text len : List Char) :
    sumLens (selectedParts (strip text) (charLimit len)) ≤
        charLimit len + 1 ∧
      (headLenLE (sortedScoredOf (strip text)) (charLimit len) = true →
        sumLens (selectedParts (strip text) (charLimit len)) ≤
          charLimit len) := by
  have hne : ∀ x ∈ sortedScoredOf (strip text), x.2 ≠ ([] : List Char) :=
    fun x hx => sortedScoredOf_mem_ne_nil hx
  have hz := selectLoop_zero_le (charLimit len)
    (sortedScoredOf (strip text)) hne
  have he := selectLoop_snd_eq (charLimit len)
    (sortedScoredOf (strip text)) 0
  unfold selectedParts
  constructor
  · omega
  · intro hh
    have h2 := hz.2 hh
    omega

theorem C1_budget_amended_witness :
    headLenLE (sortedScoredOf (strip cexC1text))
        (charLimit "short".data) = true ∧
      sumLens (selectedParts (strip cexC1text) (charLimit "short".data)) ≤
        charLimit "short".data :=
  ⟨by decide, (C1_budget_amended cexC1text "short".data).2 (by decide)⟩

/-- C2 (counterexample): a 10-character single-line text is non-empty,
so the sentinel is not returned, but no paragraph survives the
20-character filter, the selection is empty, and the fallback returns
the bare text — an output that does not end with any footer. -/
theorem C2_counterexample :
    summarize_text_smart shortLineText "medium".data = shortLineText ∧
      summarize_text_smart shortLineText "medium".data ≠ sentinelMsg ∧
      ¬ endsWithFooter (summarize_text_smart shortLineText "medium".data) := by
  refine ⟨by decide, by decide, ?_⟩
  rintro ⟨pc, wc, pre, heq⟩
  have hout : (summarize_text_smart shortLineText "medium".data).length
      = 10 := by decide
  rw [heq, List.length_append] at hout
  have hfoot := footerOf_length_ge pc wc
  omega

/-- C2 (corrected): every output produced when the greedy selection
accepts at least one paragraph is the joined section followed by the
footer reporting the accepted-paragraph count and the word count of the
joined section (possibly further extended by the fixed
additional-details note); when no paragraph is accepted the fallback
returns a bare paragraph with no footer. -/
theorem C2_footer_amended (text len : List Char)
    (h1 : strip text ≠ [])
    (h2 : selectedParts (strip text) (charLimit len) ≠ []) :
    (summarize_text_smart text len =
        assembledSummary (strip text) (charLimit len) ∨
      summarize_text_smart text len =
        assembledSummary (strip text) (charLimit len) ++ moreSuffix) ∧
      assembledSummary (strip text) (charLimit len) =
        sectionOf (strip text) (charLimit len) ++
          footerOf (selectedParts (strip text) (charLimit len)).length
            (wordsWs [] (sectionOf (strip text) (charLimit len))).length := by
  refine ⟨?_, rfl⟩
  rw [summarize_main_eq text len h1 h2]
  by_cases hc : 10 * (assembledSummary (strip text) (charLimit len)).length
      < 9 * (strip text).length
  · right
    rw [if_pos hc]
  · left
    rw [if_neg hc]

theorem C2_footer_amended_witness :
    (summarize_text_smart tABC "medium".data =
        assembledSummary (strip tABC) (charLimit "medium".data) ∨
      summarize_text_smart tABC "medium".data =
        assembledSummary (strip tABC) (charLimit "medium".data) ++
          moreSuffix) ∧
      assembledSummary (strip tABC) (charLimit "medium".data) =
        sectionOf (strip tABC) (charLimit "medium".data) ++
          footerOf
            (selectedParts (strip tABC) (charLimit "medium".data)).length
            (wordsWs []
              (sectionOf (strip tABC) (charLimit "medium".data))).length :=
  C2_footer_amended tABC "medium".data (by decide) (by decide)

/-- C7 (confirmed): with at least one accepted paragraph, the fixed
additional-details suffix is appended exactly when the assembled
summary (section plus footer) is shorter than 90% of the stripped
text's length, and the output is the assembled summary unchanged
otherwise. -/
theorem C7_additional_details (text len : List Char)
    (h1 : strip text ≠ [])
    (h2 : selectedParts (strip text) (charLimit len) ≠ []) :
    (10 * (assembledSummary (strip text) (charLimit len)).length <
        9 * (strip text).length →
      summarize_text_smart text len =
        assembledSummary (strip text) (charLimit len) ++ moreSuffix) ∧
      (¬ 10 * (assembledSummary (strip text) (charLimit len)).length <
          9 * (strip text).length →
        summarize_text_smart text len =
          assembledSummary (strip text) (charLimit len)) := by
  constructor
  · intro hc
    rw [summarize_main_eq text len h1 h2, if_pos hc]
  · intro hc
    rw [summarize_main_eq text len h1 h2, if_neg hc]

theorem C7_additional_details_witness :
    summarize_text_smart tABC "medium".data =
      assembledSummary (strip tABC) (charLimit "medium".data) :=
  (C7_additional_details tABC "medium".data (by decide) (by decide)).2
    (by decide)

/-- C3 (confirmed): when the first-ranked paragraph alone exceeds the
budget, the loop accepts exactly one entry — the paragraph's first
`char_limit` characters cut back to the last period, with a period
appended — and stops; the cut point is genuinely the last period (no
period remains beyond it); concretely, the 1500-character paragraph
with its only period at index 950 under tier "short" yields as
paragraph section precisely the text through that period inclusive. -/
theorem C3_oversized_truncation :
    (∀ (t : List Char) (limit s0 : Nat) (p0 : List Char)
        (rest : List (Nat × List Char)),
      sortedScoredOf t = (s0, p0) :: rest → limit < p0.length →
        selectedParts t limit =
          [beforeLastPeriod (p0.take limit) ++ ['.']]) ∧
      (∀ s : List Char, '.' ∈ s →
        ∃ w, s = beforeLastPeriod s ++ '.' :: w ∧ '.' ∉ w) ∧
      c3para.length = 1500 ∧ charLimit "short".data = 1000 ∧
      c3para.drop 950 = '.' :: List.replicate 549 'b' ∧
      sectionOf (strip c3para) (charLimit "short".data) =
        List.replicate 950 'a' ++ ['.'] ∧
      List.replicate 950 'a' ++ ['.'] = c3para.take 951 := by
  have huniv : ∀ (t : List Char) (limit s0 : Nat) (p0 : List Char)
      (rest : List (Nat × List Char)),
      sortedScoredOf t = (s0, p0) :: rest → limit < p0.length →
        selectedParts t limit =
          [beforeLastPeriod (p0.take limit) ++ ['.']] := by
    intro t limit s0 p0 rest hsort hlen
    unfold selectedParts
    rw [hsort]
    exact selectLoop_trunc limit s0 p0 rest hlen
  refine ⟨huniv, fun s hs => beforeLastPeriod_spec hs, c3para_length,
    by decide, c3_drop, ?_, ?_⟩
  · unfold sectionOf
    rw [strip_c3]
    rw [huniv c3para (charLimit "short".data) (scoreOf c3para) c3para []
      c3_sorted (by rw [c3para_length]; decide)]
    show beforeLastPeriod (c3para.take (charLimit "short".data)) ++ ['.']
      = _
    rw [show charLimit "short".data = 1000 from by decide, c3_before]
  · have h : (951 : Nat) = (List.replicate 950 'a').length + 1 := by
      rw [List.length_replicate]
    show _ = (List.replicate 950 'a' ++ '.' :: List.replicate 549 'b').take 951
    rw [h, List.take_append, List.take_succ_cons, List.take_zero]

theorem C3_oversized_truncation_witness :
    selectedParts (strip c3para) (charLimit "short".data) =
      [beforeLastPeriod (c3para.take (charLimit "short".data)) ++ ['.']] := by
  have h := C3_oversized_truncation.1 (strip c3para)
    (charLimit "short".data) (scoreOf c3para) c3para []
    (by rw [strip_c3]; exact c3_sorted)
    (by rw [c3para_length]; decide)
  rw [h]
